import Mathlib

/-!
Verification of the view-engine data model of `packages/core/src/view/types.ts`.

The source file declares the static node/view definition model (bitmask
enums `NodeFlags`, `BindingFlags`, `DepFlags`, `ViewFlags`, `ViewState`),
the per-instance runtime store (`ViewData`, `NodeData` and its kind-checked
accessors `asTextData` and friends), and the `Services` entry points
(`checkAndUpdateView`, `checkNoChangesView`, `resolveDep`, ...).

Bitmask constants are embedded as `Nat` values, exactly as declared in the
source.  Structural invariants that the source only states in doc comments
(depth-first node order, `childCount` / `childFlags` / `childMatchedQueries`
aggregation) are modelled by generating node sequences from a tree, the way
the template compiler produces them.  Entry points that the source only
declares (their bodies live outside this repository) are modelled from the
spec; each such definition says so in its doc comment.
-/

-- ---------------------------------------------------------------------------
-- Bitmask constants, transcribed from the source enums.
-- ---------------------------------------------------------------------------

namespace NodeFlags

def None : Nat := 0

def TypeElement : Nat := 1 <<< 0

def TypeText : Nat := 1 <<< 1

def CatRenderNode : Nat := TypeElement ||| TypeText

def TypeNgContent : Nat := 1 <<< 2

def TypePipe : Nat := 1 <<< 3

def TypePureArray : Nat := 1 <<< 4

def TypePureObject : Nat := 1 <<< 5

def TypePurePipe : Nat := 1 <<< 6

def CatPureExpression : Nat := TypePureArray ||| TypePureObject ||| TypePurePipe

def TypeValueProvider : Nat := 1 <<< 7

def TypeClassProvider : Nat := 1 <<< 8

def TypeFactoryProvider : Nat := 1 <<< 9

def TypeUseExistingProvider : Nat := 1 <<< 10

def LazyProvider : Nat := 1 <<< 11

def PrivateProvider : Nat := 1 <<< 12

def TypeDirective : Nat := 1 <<< 13

def Component : Nat := 1 <<< 14

def CatProvider : Nat :=
  TypeValueProvider ||| TypeClassProvider ||| TypeFactoryProvider |||
    TypeUseExistingProvider ||| TypeDirective

def OnInit : Nat := 1 <<< 15

def OnDestroy : Nat := 1 <<< 16

def DoCheck : Nat := 1 <<< 17

def OnChanges : Nat := 1 <<< 18

def AfterContentInit : Nat := 1 <<< 19

def AfterContentChecked : Nat := 1 <<< 20

def AfterViewInit : Nat := 1 <<< 21

def AfterViewChecked : Nat := 1 <<< 22

def EmbeddedViews : Nat := 1 <<< 23

def ComponentView : Nat := 1 <<< 24

def TypeContentQuery : Nat := 1 <<< 25

def TypeViewQuery : Nat := 1 <<< 26

def StaticQuery : Nat := 1 <<< 27

def DynamicQuery : Nat := 1 <<< 28

def CatQuery : Nat := TypeContentQuery ||| TypeViewQuery

/-- Mask of the mutually exclusive primary-kind values, as declared in the
source: `Types = CatRenderNode | TypeNgContent | TypePipe | CatPureExpression
| CatProvider | CatQuery`. -/
def Types : Nat :=
  CatRenderNode ||| TypeNgContent ||| TypePipe ||| CatPureExpression |||
    CatProvider ||| CatQuery

end NodeFlags

/-- The fourteen `Type...` bits of `NodeFlags`, in declaration order. -/
def nodeTypeBits : List Nat :=
  [NodeFlags.TypeElement, NodeFlags.TypeText, NodeFlags.TypeNgContent,
    NodeFlags.TypePipe, NodeFlags.TypePureArray, NodeFlags.TypePureObject,
    NodeFlags.TypePurePipe, NodeFlags.TypeValueProvider,
    NodeFlags.TypeClassProvider, NodeFlags.TypeFactoryProvider,
    NodeFlags.TypeUseExistingProvider, NodeFlags.TypeDirective,
    NodeFlags.TypeContentQuery, NodeFlags.TypeViewQuery]

/-- Modelled from the spec: a node definition's `flags` value is well formed
when its primary-kind portion (`flags & Types`) is exactly one of the
declared `Type...` bits ("bitmask tagging exactly one primary kind").
The compiler that constructs node definitions is not part of this
repository. -/
def NodeFlags.wellFormed (f : Nat) : Prop :=
  ∃ t ∈ nodeTypeBits, f &&& NodeFlags.Types = t

namespace BindingFlags

def TypeElementAttribute : Nat := 1 <<< 0

def TypeElementClass : Nat := 1 <<< 1

def TypeElementStyle : Nat := 1 <<< 2

def TypeProperty : Nat := 1 <<< 3

def SyntheticProperty : Nat := 1 <<< 4

def SyntheticHostProperty : Nat := 1 <<< 5

def CatSyntheticProperty : Nat := SyntheticProperty ||| SyntheticHostProperty

/-- Mask of the mutually exclusive binding kinds, as declared in the source:
`Types = TypeElementAttribute | TypeElementClass | TypeElementStyle |
TypeProperty`. -/
def Types : Nat :=
  TypeElementAttribute ||| TypeElementClass ||| TypeElementStyle ||| TypeProperty

end BindingFlags

/-- The four bits that make up `BindingFlags.Types`, in declaration order. -/
def bindingTypeBits : List Nat :=
  [BindingFlags.TypeElementAttribute, BindingFlags.TypeElementClass,
    BindingFlags.TypeElementStyle, BindingFlags.TypeProperty]

/-- Modelled from the spec: a binding definition's `flags` value is well
formed when its kind portion (`flags & Types`) is exactly one of the
declared mutually exclusive bits. -/
def BindingFlags.wellFormed (f : Nat) : Prop :=
  ∃ t ∈ bindingTypeBits, f &&& BindingFlags.Types = t

namespace ViewFlags

def None : Nat := 0

def OnPush : Nat := 1 <<< 1

end ViewFlags

/-- Modelled from the spec: a view definition's `flags` value is well formed
when it only uses bits declared in `ViewFlags` (the enum declares `None`
and `OnPush` and nothing else). -/
def ViewFlags.wellFormed (f : Nat) : Prop :=
  f &&& (ViewFlags.None ||| ViewFlags.OnPush) = f

namespace DepFlags

def None : Nat := 0

def SkipSelf : Nat := 1 <<< 0

def Optional : Nat := 1 <<< 1

def Value : Nat := 2 <<< 2

end DepFlags

namespace ViewState

def FirstCheck : Nat := 1 <<< 0

def ChecksEnabled : Nat := 1 <<< 1

def Errored : Nat := 1 <<< 2

def Destroyed : Nat := 1 <<< 3

end ViewState

/-- Source: `const enum CheckType {CheckAndUpdate, CheckNoChanges}`. -/
inductive CheckType where
  | CheckAndUpdate
  | CheckNoChanges
deriving DecidableEq

/-- Model of the TypeScript `any` payloads carried by node data; an opaque
scalar is enough for every property proved here. -/
abbrev AnyVal := Nat

-- ---------------------------------------------------------------------------
-- Node data store and its kind-checked accessors (source lines 345-423).
-- ---------------------------------------------------------------------------

/-- Source `TextData`: data for an instantiated text node. -/
structure TextData where
  renderText : AnyVal
deriving DecidableEq

/-- Source `ElementData`: data for an instantiated element node.  The render
handle is the payload relevant to the accessor discipline; the nested
component view / view container / template fields do not bear on the claims
proved here. -/
structure ElementData where
  renderElement : AnyVal
deriving DecidableEq

/-- Source `ProviderData`: data for an instantiated provider node.  The
source field is named `instance`, a reserved word in Lean. -/
structure ProviderData where
  providerInstance : AnyVal
deriving DecidableEq

/-- Source `PureExpressionData`: cached value of a pure expression node. -/
structure PureExpressionData where
  value : AnyVal
deriving DecidableEq

/-- Source `NodeData`: one of five disjoint payload shapes.  The source
brands the class so that a slot can only be consumed through one of the
kind accessors; the shallow embedding makes the five shapes a sum type, so
reading a payload necessarily goes through the constructor test that the
accessors below perform. -/
inductive NodeData where
  | text (d : TextData)
  | element (d : ElementData)
  | provider (d : ProviderData)
  | pureExpression (d : PureExpressionData)
  | queryList (d : List AnyVal)
deriving DecidableEq

/-- The five runtime payload shapes. -/
inductive DataKind where
  | textK
  | elementK
  | providerK
  | pureExpressionK
  | queryK
deriving DecidableEq

/-- Constructor tag of a node-data payload. -/
def NodeData.kind : NodeData → DataKind
  | .text _ => .textK
  | .element _ => .elementK
  | .provider _ => .providerK
  | .pureExpression _ => .pureExpressionK
  | .queryList _ => .queryK

/-- Modelled from the spec: which payload shape a node definition's primary
kind selects (text nodes get `TextData`, elements get `ElementData`,
providers / directives / pipes get `ProviderData`, pure expressions get
`PureExpressionData`, queries get a `QueryList`, and `ng-content` nodes get
no node data).  The instantiation code that populates the store is not part
of this repository. -/
def dataKindOfFlags (f : Nat) : Option DataKind :=
  if f &&& NodeFlags.TypeText ≠ 0 then some .textK
  else if f &&& NodeFlags.TypeElement ≠ 0 then some .elementK
  else if f &&& (NodeFlags.CatProvider ||| NodeFlags.TypePipe) ≠ 0 then some .providerK
  else if f &&& NodeFlags.CatPureExpression ≠ 0 then some .pureExpressionK
  else if f &&& NodeFlags.CatQuery ≠ 0 then some .queryK
  else none

/-- Source `ViewData`, restricted to the parts the accessor discipline
touches: the owning definition's node flags (in node order) and the keyed,
sparse node-data store `nodes`. -/
structure ViewData where
  nodeFlagsList : List Nat
  nodes : Nat → Option NodeData

/-- A view instance is well typed when every populated slot holds the
payload shape determined by the corresponding node definition's kind, and
slots whose kind carries no data are empty. -/
def wellTypedView (v : ViewData) : Prop :=
  ∀ i, i < v.nodeFlagsList.length →
    match dataKindOfFlags (v.nodeFlagsList.getD i 0) with
    | some k => ∃ d, v.nodes i = some d ∧ d.kind = k
    | none => v.nodes i = none

/-- Source `asTextData`: accessor for `view.nodes`, returning the payload
only when the slot really holds text data. -/
def asTextData (view : ViewData) (index : Nat) : Option TextData :=
  match view.nodes index with
  | some (.text d) => some d
  | _ => none

/-- Source `asElementData`. -/
def asElementData (view : ViewData) (index : Nat) : Option ElementData :=
  match view.nodes index with
  | some (.element d) => some d
  | _ => none

/-- Source `asProviderData`. -/
def asProviderData (view : ViewData) (index : Nat) : Option ProviderData :=
  match view.nodes index with
  | some (.provider d) => some d
  | _ => none

/-- Source `asPureExpressionData`. -/
def asPureExpressionData (view : ViewData) (index : Nat) : Option PureExpressionData :=
  match view.nodes index with
  | some (.pureExpression d) => some d
  | _ => none

/-- Source `asQueryList`. -/
def asQueryList (view : ViewData) (index : Nat) : Option (List AnyVal) :=
  match view.nodes index with
  | some (.queryList d) => some d
  | _ => none

-- ---------------------------------------------------------------------------
-- Depth-first node sequences (NodeDef / ViewDefinition, source lines 21-131).
-- ---------------------------------------------------------------------------

/-- Static per-node inputs of the flattening: the node's own flags and ids
of the queries it matches (`NodeDef.flags`, `NodeDef.matchedQueryIds`). -/
structure NodeInfo where
  flags : Nat
  matchedQueryIds : Nat
deriving DecidableEq

/-- A template's node tree as the compiler sees it, before it is serialized
into the depth-first `ViewDefinition.nodes` array. -/
inductive NTree where
  | node : NodeInfo → List NTree → NTree

/-- Number of nodes in a forest. -/
def fsize : List NTree → Nat
  | [] => 0
  | .node _ cs :: ts => 1 + fsize cs + fsize ts

/-- Bitwise OR of the `flags` of every node in a forest (`childFlags`
aggregation of the source: all transitive children). -/
def aggF : List NTree → Nat
  | [] => 0
  | .node info cs :: ts => info.flags ||| aggF cs ||| aggF ts

/-- Bitwise OR of the `matchedQueryIds` of every node in a forest (the
source bloom filters `childMatchedQueries` and `nodeMatchedQueries`). -/
def aggQ : List NTree → Nat
  | [] => 0
  | .node info cs :: ts => info.matchedQueryIds ||| aggQ cs ||| aggQ ts

/-- Bitwise OR of the root `flags` of a forest (`directChildFlags`
aggregation of the source: direct children only). -/
def rootOrF : List NTree → Nat
  | [] => 0
  | .node info _ :: ts => info.flags ||| rootOrF ts

/-- Root `flags` of a forest, as a list. -/
def rootFlagsList : List NTree → List Nat
  | [] => []
  | .node info _ :: ts => info.flags :: rootFlagsList ts

/-- Source `NodeDef`, restricted to the structural fields the claims are
about: flags, position, back-reference to the parent, transitive child
count, the three aggregate masks and the query bloom filter. -/
structure NodeDef where
  flags : Nat
  index : Nat
  parent : Option Nat
  childCount : Nat
  childFlags : Nat
  directChildFlags : Nat
  matchedQueryIds : Nat
  childMatchedQueries : Nat
deriving DecidableEq, Inhabited

/-- Modelled from the spec: serialize a forest into the depth-first node
sequence of a `ViewDefinition` ("Order: Depth first"), computing for every
node its `index`, `parent` back-reference, the transitive `childCount`, and
the aggregates `childFlags` (all transitive children), `directChildFlags`
(direct children only) and `childMatchedQueries` (bloom filter over the
subtree).  The template compiler that performs this serialization is not
part of this repository; the field meanings are the source's doc
comments. -/
def flattenF (p : Option Nat) (i : Nat) : List NTree → List NodeDef
  | [] => []
  | .node info cs :: ts =>
    { flags := info.flags
      index := i
      parent := p
      childCount := fsize cs
      childFlags := aggF cs
      directChildFlags := rootOrF cs
      matchedQueryIds := info.matchedQueryIds
      childMatchedQueries := aggQ cs } ::
      (flattenF (some i) (i + 1) cs ++ flattenF p (i + 1 + fsize cs) ts)

/-- Source `ViewDefinition`, restricted to the structural fields the claims
are about. -/
structure ViewDefinition where
  flags : Nat
  nodes : List NodeDef
  nodeFlags : Nat
  rootNodeFlags : Nat
  nodeMatchedQueries : Nat
deriving DecidableEq

/-- Modelled from the spec: the view definition produced for a template
whose node tree is the forest `ts`. -/
def viewDefOfForest (flags : Nat) (ts : List NTree) : ViewDefinition :=
  { flags := flags
    nodes := flattenF none 0 ts
    nodeFlags := aggF ts
    rootNodeFlags := rootOrF ts
    nodeMatchedQueries := aggQ ts }

/-- Total access into a node sequence (out-of-range reads yield the default
node; every use below is guarded by a length bound). -/
def nthNode (l : List NodeDef) (j : Nat) : NodeDef :=
  l.getD j default

/-- Node `j` names node `i` as its parent. -/
def childOfIdx (l : List NodeDef) (j i : Nat) : Prop :=
  j < l.length ∧ (nthNode l j).parent = some i

/-- Node `j` is a transitive child of node `i`: following `parent`
back-references from `j` reaches `i`. -/
def transChild (l : List NodeDef) (j i : Nat) : Prop :=
  Relation.TransGen (childOfIdx l) j i

/-- Bitwise OR of a list of masks. -/
def orList (l : List Nat) : Nat :=
  l.foldr (fun a b => a ||| b) 0

-- ---------------------------------------------------------------------------
-- Change-detection cycle (Services.checkAndUpdateView / checkNoChangesView).
-- ---------------------------------------------------------------------------

/-- A changed-after-checked diagnostic, identifying the offending binding
and the recomputed / cached values. -/
structure ChangedError where
  bindingIndex : Nat
  oldValue : AnyVal
  newValue : AnyVal
deriving DecidableEq

/-- Modelled from the spec: the slice of a view instance's state that one
check cycle touches.  `bindings` are the binding evaluators of the view
definition's update functions (pure functions of the template context),
`oldValues` is the previous-binding-value cache, `state` the `ViewState`
bitmask.  The bodies of the check entry points are not part of this
repository (the source only declares them in `Services`). -/
structure CheckView where
  bindings : List (AnyVal → AnyVal)
  context : AnyVal
  oldValues : List AnyVal
  state : Nat

/-- Outcome of one check traversal: the view state afterwards, the node
indices for which lifecycle hooks fired, and the optional
changed-after-checked diagnostic. -/
structure CheckOutcome where
  view : CheckView
  hooksFired : List Nat
  changedError : Option ChangedError

/-- Modelled from the spec: the shared traversal of both check modes over
the (evaluator, cached value) pairs in node order, starting at binding
index `i`.  `CheckAndUpdate` writes the recomputed value into the cache and
fires a hook where the value changed; `CheckNoChanges` keeps the cache,
fires no hooks, and reports the first binding whose recomputed value
differs from the cached one. -/
def runBindings (ct : CheckType) (ctx : AnyVal) (i : Nat) :
    List ((AnyVal → AnyVal) × AnyVal) → List AnyVal × List Nat × Option ChangedError
  | [] => ([], [], none)
  | (ev, old) :: rest =>
    let nv := ev ctx
    let r := runBindings ct ctx (i + 1) rest
    match ct with
    | .CheckAndUpdate =>
      (nv :: r.1, if nv = old then r.2.1 else i :: r.2.1, r.2.2)
    | .CheckNoChanges =>
      (old :: r.1, [], if nv = old then r.2.2 else some ⟨i, old, nv⟩)

/-- Clear the `FirstCheck` state bit. -/
def clearFirstCheck (s : Nat) : Nat :=
  if s &&& ViewState.FirstCheck ≠ 0 then s - ViewState.FirstCheck else s

/-- Modelled from the spec: one check cycle in mode `ct` over the view's
bindings, in definition order. -/
def checkViewCycle (ct : CheckType) (v : CheckView) : CheckOutcome :=
  let r := runBindings ct v.context 0 (v.bindings.zip v.oldValues)
  match ct with
  | .CheckAndUpdate =>
    ⟨{ v with oldValues := r.1, state := clearFirstCheck v.state }, r.2.1, r.2.2⟩
  | .CheckNoChanges =>
    ⟨{ v with oldValues := r.1 }, r.2.1, r.2.2⟩

/-- Modelled from the spec: `Services.checkAndUpdateView`. -/
def checkAndUpdateView (v : CheckView) : CheckOutcome :=
  checkViewCycle .CheckAndUpdate v

/-- Modelled from the spec: `Services.checkNoChangesView`. -/
def checkNoChangesView (v : CheckView) : CheckOutcome :=
  checkViewCycle .CheckNoChanges v

/-- Binding `idx` of the view currently evaluates to something other than
its cached previous value. -/
def bindingDiffers (v : CheckView) (idx : Nat) : Prop :=
  idx < v.bindings.length ∧
    (v.bindings.getD idx id) v.context ≠ v.oldValues.getD idx 0

-- ---------------------------------------------------------------------------
-- Dependency resolution (Services.resolveDep, source lines 463-465).
-- ---------------------------------------------------------------------------

/-- Source `DepDef`: a dependency request (resolution flags, token and its
string key). -/
structure DepDef where
  flags : Nat
  token : AnyVal
  tokenKey : String

/-- Modelled from the spec: the provider maps of one element node definition
(`ElementDef.publicProviders` / `ElementDef.allProviders`), as association
lists from token key to provider value, plus the element's node index used
to identify it in errors. -/
structure ElementProviders where
  index : Nat
  publicProviders : List (String × AnyVal)
  allProviders : List (String × AnyVal)

/-- A failed resolution, identifying the requested token and the
originating element. -/
structure NoProviderError where
  tokenKey : String
  elementIndex : Nat
deriving DecidableEq

/-- First value registered for a token key in a provider map. -/
def lookupToken : List (String × AnyVal) → String → Option AnyVal
  | [], _ => none
  | (k', v) :: rest, k => if k' = k then some v else lookupToken rest k

/-- Walk the render-parent chain upward, consulting only the public
provider map of each element. -/
def walkPublicProviders (k : String) : List ElementProviders → Option AnyVal
  | [] => none
  | e :: rest =>
    match lookupToken e.publicProviders k with
    | some v => some v
    | none => walkPublicProviders k rest

/-- Modelled from the spec: `Services.resolveDep`.  A `Value` dependency
yields its token directly.  Otherwise the element's own maps are consulted
(all providers when private services are allowed, public only otherwise,
nothing when `SkipSelf` is set), then the render-parent chain (public maps
only), then the root injector; if everything misses, an `Optional`
dependency yields the caller-supplied not-found value and any other
dependency fails with a no-provider error naming the token and the
originating element. -/
def resolveDep (rootInjector : String → Option AnyVal) (el : ElementProviders)
    (ancestors : List ElementProviders) (allowPrivateServices : Bool)
    (depDef : DepDef) (notFoundValue : AnyVal) : Except NoProviderError AnyVal :=
  if depDef.flags &&& DepFlags.Value ≠ 0 then .ok depDef.token
  else
    let selfHit : Option AnyVal :=
      if depDef.flags &&& DepFlags.SkipSelf ≠ 0 then none
      else if allowPrivateServices then lookupToken el.allProviders depDef.tokenKey
      else lookupToken el.publicProviders depDef.tokenKey
    match selfHit with
    | some v => .ok v
    | none =>
      match walkPublicProviders depDef.tokenKey ancestors with
      | some v => .ok v
      | none =>
        match rootInjector depDef.tokenKey with
        | some v => .ok v
        | none =>
          if depDef.flags &&& DepFlags.Optional ≠ 0 then .ok notFoundValue
          else .error ⟨depDef.tokenKey, el.index⟩

/-- The whole provider chain for a request misses: both of the element's
own maps, every ancestor's public map, and the root injector. -/
def chainExhausted (rootInjector : String → Option AnyVal) (el : ElementProviders)
    (ancestors : List ElementProviders) (k : String) : Prop :=
  lookupToken el.publicProviders k = none ∧
  lookupToken el.allProviders k = none ∧
  (∀ e ∈ ancestors, lookupToken e.publicProviders k = none) ∧
  rootInjector k = none

-- ---------------------------------------------------------------------------
-- Concrete sample inputs used to exercise the theorems below.
-- ---------------------------------------------------------------------------

/-- The `NodeFlags` category bits that really are orthogonal to the
primary-kind mask: lazy, private, component, the eight lifecycle-hook bits,
static-query and dynamic-query.  (The spec also lists content-query and
view-query here, but in the source those are primary-kind bits inside
`CatQuery` and hence inside `Types`.) -/
def orthogonalCategoryBits : List Nat :=
  [NodeFlags.LazyProvider, NodeFlags.PrivateProvider, NodeFlags.Component,
    NodeFlags.OnInit, NodeFlags.OnDestroy, NodeFlags.DoCheck,
    NodeFlags.OnChanges, NodeFlags.AfterContentInit,
    NodeFlags.AfterContentChecked, NodeFlags.AfterViewInit,
    NodeFlags.AfterViewChecked, NodeFlags.StaticQuery, NodeFlags.DynamicQuery]

/-- A two-node template tree: an element whose only child is a text node
matching query id bit 2. -/
def sampleForest : List NTree :=
  [.node { flags := NodeFlags.TypeElement, matchedQueryIds := 0 }
    [.node { flags := NodeFlags.TypeText, matchedQueryIds := 2 } []]]

/-- A one-slot view instance holding text data, for exercising the
accessors. -/
def sampleViewData : ViewData :=
  { nodeFlagsList := [NodeFlags.TypeText]
    nodes := fun i => if i = 0 then some (.text { renderText := 7 }) else none }

/-- A one-binding view whose cached value disagrees with the recomputed
one. -/
def sampleCheckView : CheckView :=
  { bindings := [fun x => x + 1]
    context := 1
    oldValues := [5]
    state := ViewState.FirstCheck ||| ViewState.ChecksEnabled }

-- ---------------------------------------------------------------------------
-- Helper lemmas: bit arithmetic and list aggregation.
-- ---------------------------------------------------------------------------

theorem or_eq_zero_parts {a b : Nat} (h : a ||| b = 0) : a = 0 ∧ b = 0 := by
  constructor <;>
    · apply Nat.eq_of_testBit_eq
      intro i
      have hbit := congrArg (fun x => Nat.testBit x i) h
      simp only [Nat.testBit_or, Nat.zero_testBit, Bool.or_eq_false_iff] at hbit
      simp [hbit.1, hbit.2, Nat.zero_testBit]

theorem and_or_ne_zero_left {x a : Nat} (h : x &&& a ≠ 0) (b : Nat) :
    x &&& (a ||| b) ≠ 0 := by
  rw [Nat.and_or_distrib_left]
  intro h0
  exact h (or_eq_zero_parts h0).1

theorem and_or_ne_zero_right {x b : Nat} (h : x &&& b ≠ 0) (a : Nat) :
    x &&& (a ||| b) ≠ 0 := by
  rw [Nat.and_or_distrib_left]
  intro h0
  exact h (or_eq_zero_parts h0).2

theorem orList_nil : orList [] = 0 := rfl

theorem orList_cons (a : Nat) (l : List Nat) : orList (a :: l) = a ||| orList l := rfl

theorem orList_append (l₁ l₂ : List Nat) :
    orList (l₁ ++ l₂) = orList l₁ ||| orList l₂ := by
  induction l₁ with
  | nil => simp [orList_nil, orList]
  | cons a l ih =>
    simp only [List.cons_append, orList_cons, ih, Nat.or_assoc]

/-- Induction over forests, recursing both into the children of the first
tree and into the remaining trees. -/
theorem forest_induction {P : List NTree → Prop} (h0 : P [])
    (h1 : ∀ info cs ts, P cs → P ts → P (NTree.node info cs :: ts)) :
    ∀ ts, P ts := by
  have key : ∀ n ts, fsize ts ≤ n → P ts := by
    intro n
    induction n with
    | zero =>
      intro ts h
      match ts with
      | [] => exact h0
      | .node info cs :: ts' => simp [fsize] at h
    | succ n ih =>
      intro ts h
      match ts with
      | [] => exact h0
      | .node info cs :: ts' =>
        simp only [fsize] at h
        exact h1 info cs ts' (ih cs (by omega)) (ih ts' (by omega))
  exact fun ts => key (fsize ts) ts le_rfl

theorem flattenF_length (ts : List NTree) :
    ∀ p i, (flattenF p i ts).length = fsize ts := by
  induction ts using forest_induction with
  | h0 => intro p i; simp [flattenF, fsize]
  | h1 info cs ts ihc iht =>
    intro p i
    simp [flattenF, fsize, ihc, iht]
    omega

theorem nthNode_cons_zero (e : NodeDef) (l : List NodeDef) :
    nthNode (e :: l) 0 = e := rfl

theorem nthNode_cons_succ (e : NodeDef) (l : List NodeDef) (j : Nat) :
    nthNode (e :: l) (j + 1) = nthNode l j := by
  simp [nthNode, List.getD_cons_succ]

theorem nthNode_append_left {l₁ : List NodeDef} (l₂ : List NodeDef) {j : Nat}
    (h : j < l₁.length) : nthNode (l₁ ++ l₂) j = nthNode l₁ j :=
  List.getD_append l₁ l₂ default j h

theorem nthNode_append_right {l₁ : List NodeDef} (l₂ : List NodeDef) {j : Nat}
    (h : l₁.length ≤ j) : nthNode (l₁ ++ l₂) j = nthNode l₂ (j - l₁.length) :=
  List.getD_append_right l₁ l₂ default j h

-- ---------------------------------------------------------------------------
-- Structural lemmas about the depth-first serialization.
-- ---------------------------------------------------------------------------

theorem flattenF_childCount_le (ts : List NTree) :
    ∀ p i0 j, j < fsize ts →
      j + 1 + (nthNode (flattenF p i0 ts) j).childCount ≤ fsize ts := by
  induction ts using forest_induction with
  | h0 => intro p i0 j hj; simp [fsize] at hj
  | h1 info cs ts ihc iht =>
    intro p i0 j hj
    simp only [fsize] at hj ⊢
    match j with
    | 0 =>
      simp only [flattenF, nthNode_cons_zero]
      omega
    | j' + 1 =>
      simp only [flattenF, nthNode_cons_succ]
      by_cases hA : j' < fsize cs
      · rw [nthNode_append_left _ (by rw [flattenF_length]; exact hA)]
        have := ihc (some i0) (i0 + 1) j' hA
        omega
      · rw [nthNode_append_right _ (by rw [flattenF_length]; omega),
          flattenF_length]
        have := iht p (i0 + 1 + fsize cs) (j' - fsize cs) (by omega)
        omega

theorem flattenF_index (ts : List NTree) :
    ∀ p i0 j, j < fsize ts → (nthNode (flattenF p i0 ts) j).index = i0 + j := by
  induction ts using forest_induction with
  | h0 => intro p i0 j hj; simp [fsize] at hj
  | h1 info cs ts ihc iht =>
    intro p i0 j hj
    simp only [fsize] at hj
    match j with
    | 0 => simp [flattenF, nthNode_cons_zero]
    | j' + 1 =>
      simp only [flattenF, nthNode_cons_succ]
      by_cases hA : j' < fsize cs
      · rw [nthNode_append_left _ (by rw [flattenF_length]; exact hA)]
        rw [ihc (some i0) (i0 + 1) j' hA]
        omega
      · rw [nthNode_append_right _ (by rw [flattenF_length]; omega),
          flattenF_length]
        rw [iht p (i0 + 1 + fsize cs) (j' - fsize cs) (by omega)]
        omega

theorem flattenF_slice (ts : List NTree) :
    ∀ p i0 j, j < fsize ts → ∃ cs : List NTree,
      (nthNode (flattenF p i0 ts) j).childCount = fsize cs ∧
      (nthNode (flattenF p i0 ts) j).childFlags = aggF cs ∧
      (nthNode (flattenF p i0 ts) j).directChildFlags = rootOrF cs ∧
      (nthNode (flattenF p i0 ts) j).childMatchedQueries = aggQ cs ∧
      ((flattenF p i0 ts).drop (j + 1)).take (nthNode (flattenF p i0 ts) j).childCount
        = flattenF (some (i0 + j)) (i0 + j + 1) cs := by
  induction ts using forest_induction with
  | h0 => intro p i0 j hj; simp [fsize] at hj
  | h1 info cs ts ihc iht =>
    intro p i0 j hj
    simp only [fsize] at hj
    have hAeq : (flattenF (some i0) (i0 + 1) cs).length = fsize cs :=
      flattenF_length cs (some i0) (i0 + 1)
    match j with
    | 0 =>
      refine ⟨cs, ?_, ?_, ?_, ?_, ?_⟩ <;>
        simp only [flattenF, nthNode_cons_zero, List.drop_succ_cons, List.drop_zero]
      rw [List.take_append_eq_append_take, hAeq.symm, List.take_length,
        Nat.sub_self, List.take_zero, List.append_nil]
      simp
    | j' + 1 =>
      simp only [flattenF, nthNode_cons_succ, List.drop_succ_cons]
      by_cases hA : j' < fsize cs
      · have hAlen : j' < (flattenF (some i0) (i0 + 1) cs).length := by omega
        rw [nthNode_append_left _ hAlen]
        obtain ⟨cs', h1', h2', h3', h4', h5'⟩ := ihc (some i0) (i0 + 1) j' hA
        refine ⟨cs', h1', h2', h3', h4', ?_⟩
        have hcont := flattenF_childCount_le cs (some i0) (i0 + 1) j' hA
        rw [List.drop_append_eq_append_drop, List.take_append_eq_append_take]
        have hz : (nthNode (flattenF (some i0) (i0 + 1) cs) j').childCount
            - ((flattenF (some i0) (i0 + 1) cs).drop (j' + 1)).length = 0 := by
          rw [List.length_drop, hAeq]; omega
        rw [hz, List.take_zero, List.append_nil, h5',
          show i0 + (j' + 1) = i0 + 1 + j' by omega]
      · have hAlen : (flattenF (some i0) (i0 + 1) cs).length ≤ j' := by omega
        rw [nthNode_append_right _ hAlen, hAeq]
        obtain ⟨cs', h1', h2', h3', h4', h5'⟩ :=
          iht p (i0 + 1 + fsize cs) (j' - fsize cs) (by omega)
        refine ⟨cs', h1', h2', h3', h4', ?_⟩
        rw [List.drop_append_eq_append_drop,
          List.drop_of_length_le (by omega), List.nil_append, hAeq,
          show j' + 1 - fsize cs = (j' - fsize cs) + 1 by omega, h5',
          show i0 + (j' + 1) = i0 + 1 + fsize cs + (j' - fsize cs) by omega]

theorem orList_map_flags_flattenF (ts : List NTree) :
    ∀ p i0, orList ((flattenF p i0 ts).map NodeDef.flags) = aggF ts := by
  induction ts using forest_induction with
  | h0 => intro p i0; simp [flattenF, aggF, orList_nil]
  | h1 info cs ts ihc iht =>
    intro p i0
    simp only [flattenF, aggF, List.map_cons, List.map_append, orList_cons,
      orList_append, ihc, iht, Nat.or_assoc]

theorem orList_rootFlagsList (ts : List NTree) :
    orList (rootFlagsList ts) = rootOrF ts := by
  induction ts using forest_induction with
  | h0 => simp [rootFlagsList, rootOrF, orList_nil]
  | h1 info cs ts ihc iht =>
    simp only [rootFlagsList, rootOrF, orList_cons, iht]

theorem mem_flattenF_matchedQueryIds (ts : List NTree) :
    ∀ p i0 e, e ∈ flattenF p i0 ts →
      ∀ x, x &&& e.matchedQueryIds ≠ 0 → x &&& aggQ ts ≠ 0 := by
  induction ts using forest_induction with
  | h0 => intro p i0 e he; simp [flattenF] at he
  | h1 info cs ts ihc iht =>
    intro p i0 e he x hx
    simp only [flattenF, List.mem_cons, List.mem_append] at he
    simp only [aggQ]
    rcases he with he | he | he
    · subst he
      exact and_or_ne_zero_left (and_or_ne_zero_left hx _) _
    · exact and_or_ne_zero_left
        (and_or_ne_zero_right (ihc (some i0) (i0 + 1) e he x hx) _) _
    · exact and_or_ne_zero_right (iht p (i0 + 1 + fsize cs) e he x hx) _

theorem flattenF_parent (ts : List NTree) :
    ∀ p i0 j, j < fsize ts →
      (nthNode (flattenF p i0 ts) j).parent = p ∨
      ∃ qr, qr < j ∧ (nthNode (flattenF p i0 ts) j).parent = some (i0 + qr) ∧
        j ≤ qr + (nthNode (flattenF p i0 ts) qr).childCount := by
  induction ts using forest_induction with
  | h0 => intro p i0 j hj; simp [fsize] at hj
  | h1 info cs ts ihc iht =>
    intro p i0 j hj
    simp only [fsize] at hj
    have hAeq : (flattenF (some i0) (i0 + 1) cs).length = fsize cs :=
      flattenF_length cs (some i0) (i0 + 1)
    match j with
    | 0 => left; simp [flattenF, nthNode_cons_zero]
    | j' + 1 =>
      simp only [flattenF, nthNode_cons_succ]
      by_cases hA : j' < fsize cs
      · rw [nthNode_append_left _ (by omega)]
        rcases ihc (some i0) (i0 + 1) j' hA with hp | ⟨qr, hqr, hpar, hcc⟩
        · right
          refine ⟨0, by omega, ?_, ?_⟩
          · rw [hp, Nat.add_zero]
          · simp only [nthNode_cons_zero]
            omega
        · right
          refine ⟨qr + 1, by omega, ?_, ?_⟩
          · rw [hpar]
            congr 1
            omega
          · simp only [nthNode_cons_succ]
            rw [nthNode_append_left _ (by omega)]
            omega
      · rw [nthNode_append_right _ (by omega), hAeq]
        rcases iht p (i0 + 1 + fsize cs) (j' - fsize cs) (by omega) with
          hp | ⟨qr, hqr, hpar, hcc⟩
        · left; exact hp
        · right
          refine ⟨1 + fsize cs + qr, by omega, by rw [hpar]; congr 1; omega, ?_⟩
          rw [show 1 + fsize cs + qr = (fsize cs + qr) + 1 by omega,
            nthNode_cons_succ, nthNode_append_right _ (by omega), hAeq,
            show fsize cs + qr - fsize cs = qr by omega]
          omega

theorem flattenF_parent_in_subtree (ts : List NTree) :
    ∀ p i0 i j, i < j → j < fsize ts →
      j ≤ i + (nthNode (flattenF p i0 ts) i).childCount →
      ∃ q, (nthNode (flattenF p i0 ts) j).parent = some q ∧ i0 + i ≤ q := by
  induction ts using forest_induction with
  | h0 => intro p i0 i j hij hj; simp [fsize] at hj
  | h1 info cs ts ihc iht =>
    intro p i0 i j hij hj hsub
    simp only [fsize] at hj
    have hAeq : (flattenF (some i0) (i0 + 1) cs).length = fsize cs :=
      flattenF_length cs (some i0) (i0 + 1)
    match i, j with
    | 0, j' + 1 =>
      simp only [flattenF, nthNode_cons_zero] at hsub
      have hjA : j' < fsize cs := by omega
      simp only [flattenF, nthNode_cons_succ]
      rw [nthNode_append_left _ (by omega)]
      rcases flattenF_parent cs (some i0) (i0 + 1) j' hjA with hp | ⟨qr, _, hpar, _⟩
      · exact ⟨i0, hp, by omega⟩
      · exact ⟨i0 + 1 + qr, hpar, by omega⟩
    | i' + 1, j' + 1 =>
      simp only [flattenF, nthNode_cons_succ] at hsub ⊢
      by_cases hA : i' < fsize cs
      · rw [nthNode_append_left _ (show i' < (flattenF (some i0) (i0 + 1) cs).length
          by omega)] at hsub
        have hcont := flattenF_childCount_le cs (some i0) (i0 + 1) i' hA
        have hjA : j' < fsize cs := by omega
        rw [nthNode_append_left _ (show j' < (flattenF (some i0) (i0 + 1) cs).length
          by omega)]
        obtain ⟨q, hq, hge⟩ := ihc (some i0) (i0 + 1) i' j' (by omega) hjA (by omega)
        exact ⟨q, hq, by omega⟩
      · rw [nthNode_append_right _ (show (flattenF (some i0) (i0 + 1) cs).length ≤ i'
          by omega), hAeq] at hsub
        have hjB : fsize cs ≤ j' := by omega
        rw [nthNode_append_right _ (show (flattenF (some i0) (i0 + 1) cs).length ≤ j'
          by omega), hAeq]
        obtain ⟨q, hq, hge⟩ := iht p (i0 + 1 + fsize cs) (i' - fsize cs)
          (j' - fsize cs) (by omega) (by omega) (by omega)
        exact ⟨q, hq, by omega⟩

theorem flattenF_nested (ts : List NTree) :
    ∀ p i0 i j, i < j → j < fsize ts →
      j ≤ i + (nthNode (flattenF p i0 ts) i).childCount →
      j + (nthNode (flattenF p i0 ts) j).childCount
        ≤ i + (nthNode (flattenF p i0 ts) i).childCount := by
  induction ts using forest_induction with
  | h0 => intro p i0 i j hij hj; simp [fsize] at hj
  | h1 info cs ts ihc iht =>
    intro p i0 i j hij hj hsub
    simp only [fsize] at hj
    have hAeq : (flattenF (some i0) (i0 + 1) cs).length = fsize cs :=
      flattenF_length cs (some i0) (i0 + 1)
    match i, j with
    | 0, j' + 1 =>
      simp only [flattenF, nthNode_cons_zero, nthNode_cons_succ] at hsub ⊢
      have hjA : j' < fsize cs := by omega
      rw [nthNode_append_left _ (by omega)]
      have := flattenF_childCount_le cs (some i0) (i0 + 1) j' hjA
      omega
    | i' + 1, j' + 1 =>
      simp only [flattenF, nthNode_cons_succ] at hsub ⊢
      by_cases hA : i' < fsize cs
      · rw [nthNode_append_left _ (show i' < (flattenF (some i0) (i0 + 1) cs).length
          by omega)] at hsub
        have hcont := flattenF_childCount_le cs (some i0) (i0 + 1) i' hA
        have hjA : j' < fsize cs := by omega
        rw [nthNode_append_left _ (show j' < (flattenF (some i0) (i0 + 1) cs).length
          by omega),
          nthNode_append_left _ (show i' < (flattenF (some i0) (i0 + 1) cs).length
          by omega)]
        have := ihc (some i0) (i0 + 1) i' j' (by omega) hjA (by omega)
        omega
      · rw [nthNode_append_right _ (show (flattenF (some i0) (i0 + 1) cs).length ≤ i'
          by omega), hAeq] at hsub
        have hjB : fsize cs ≤ j' := by omega
        rw [nthNode_append_right _ (show (flattenF (some i0) (i0 + 1) cs).length ≤ j'
          by omega),
          nthNode_append_right _ (show (flattenF (some i0) (i0 + 1) cs).length ≤ i'
          by omega), hAeq]
        have := iht p (i0 + 1 + fsize cs) (i' - fsize cs) (j' - fsize cs)
          (by omega) (by omega) (by omega)
        omega

theorem flattenF_filter_out (ts : List NTree) :
    ∀ p i0 q, p ≠ some q → (q < i0 ∨ i0 + fsize ts ≤ q) →
      (flattenF p i0 ts).filter (fun e => e.parent == some q) = [] := by
  induction ts using forest_induction with
  | h0 => intro p i0 q hp hr; simp [flattenF]
  | h1 info cs ts ihc iht =>
    intro p i0 q hp hr
    simp only [fsize] at hr
    have h0 : (p == some q) = false := by
      rw [beq_eq_false_iff_ne]; exact hp
    simp only [flattenF, List.filter_cons, List.filter_append, h0,
      Bool.false_eq_true, if_false]
    rw [ihc (some i0) (i0 + 1) q (by intro h; injection h with h; omega)
      (by omega),
      iht p (i0 + 1 + fsize cs) q hp (by omega), List.append_nil]

theorem flattenF_filter_roots (ts : List NTree) :
    ∀ i0 q, q < i0 →
      ((flattenF (some q) i0 ts).filter (fun e => e.parent == some q)).map NodeDef.flags
        = rootFlagsList ts := by
  induction ts using forest_induction with
  | h0 => intro i0 q hq; simp [flattenF, rootFlagsList]
  | h1 info cs ts ihc iht =>
    intro i0 q hq
    simp only [flattenF, List.filter_cons, List.filter_append, beq_self_eq_true,
      if_true, List.map_cons]
    rw [flattenF_filter_out cs (some i0) (i0 + 1) q
        (by intro h; injection h with h; omega) (by omega),
      List.nil_append, iht (i0 + 1 + fsize cs) q (by omega)]
    simp [rootFlagsList]

theorem flattenF_directChildFlags (ts : List NTree) :
    ∀ p i0 j, (∀ a, p = some a → a < i0) → j < fsize ts →
      orList ((((flattenF p i0 ts).filter
          (fun e => e.parent == some (i0 + j))).map NodeDef.flags))
        = (nthNode (flattenF p i0 ts) j).directChildFlags := by
  induction ts using forest_induction with
  | h0 => intro p i0 j hp hj; simp [fsize] at hj
  | h1 info cs ts ihc iht =>
    intro p i0 j hp hj
    simp only [fsize] at hj
    have hAeq : (flattenF (some i0) (i0 + 1) cs).length = fsize cs :=
      flattenF_length cs (some i0) (i0 + 1)
    have hpe : (p == some (i0 + j)) = false := by
      rw [beq_eq_false_iff_ne]
      intro h
      have := hp _ h
      omega
    match j with
    | 0 =>
      simp only [flattenF, nthNode_cons_zero, List.filter_cons,
        List.filter_append, hpe, Bool.false_eq_true, if_false]
      rw [flattenF_filter_out ts p (i0 + 1 + fsize cs) (i0 + 0)
          (by intro h; have := hp _ h; omega) (by omega),
        List.append_nil, Nat.add_zero, flattenF_filter_roots cs (i0 + 1) i0 (by omega),
        orList_rootFlagsList]
    | j' + 1 =>
      simp only [flattenF, nthNode_cons_succ, List.filter_cons,
        List.filter_append, hpe, Bool.false_eq_true, if_false]
      by_cases hA : j' < fsize cs
      · rw [nthNode_append_left _ (by omega)]
        rw [flattenF_filter_out ts p (i0 + 1 + fsize cs) (i0 + (j' + 1))
            (by intro h; have := hp _ h; omega) (by omega),
          List.append_nil,
          show i0 + (j' + 1) = (i0 + 1) + j' by omega,
          ihc (some i0) (i0 + 1) j' (by intro a ha; injection ha with ha; omega) hA]
      · rw [nthNode_append_right _ (by omega), hAeq]
        rw [flattenF_filter_out cs (some i0) (i0 + 1) (i0 + (j' + 1))
            (by intro h; injection h with h; omega) (by omega),
          List.nil_append,
          show i0 + (j' + 1) = (i0 + 1 + fsize cs) + (j' - fsize cs) by omega,
          iht p (i0 + 1 + fsize cs) (j' - fsize cs)
            (by intro a ha; have := hp _ ha; omega) (by omega)]


theorem transChild_of_interval (ts : List NTree) :
    ∀ j i, i < j → j < fsize ts →
      j ≤ i + (nthNode (flattenF none 0 ts) i).childCount →
      transChild (flattenF none 0 ts) j i := by
  intro j
  induction j using Nat.strong_induction_on with
  | _ j IH =>
    intro i hij hj hsub
    obtain ⟨q, hq, hqi⟩ := flattenF_parent_in_subtree ts none 0 i j hij hj hsub
    rcases flattenF_parent ts none 0 j hj with hp | ⟨qr, hqr, hpar, hcc⟩
    · rw [hp] at hq
      exact absurd hq (by simp)
    · rw [hpar] at hq
      injection hq with hq
      by_cases hqei : q = i
      · refine Relation.TransGen.single ⟨by rwa [flattenF_length], ?_⟩
        rw [hpar]
        congr 1
        omega
      · have htq : transChild (flattenF none 0 ts) q i :=
          IH q (by omega) i (by omega) (by omega) (by omega)
        exact Relation.TransGen.head
          ⟨by rw [flattenF_length]; omega, by rw [hpar, hq]⟩ htq

theorem interval_of_transChild (ts : List NTree) (j i : Nat)
    (h : transChild (flattenF none 0 ts) j i) :
    i < j ∧ j ≤ i + (nthNode (flattenF none 0 ts) i).childCount := by
  induction h with
  | single hji =>
    rename_i b
    obtain ⟨hlt, hpar⟩ := hji
    have hjlen : j < fsize ts := by rwa [flattenF_length] at hlt
    rcases flattenF_parent ts none 0 j hjlen with hp | ⟨qr, hqr, hpar', hcc⟩
    · rw [hpar] at hp
      exact absurd hp (by simp)
    · rw [hpar] at hpar'
      injection hpar' with h'
      refine ⟨by omega, ?_⟩
      rw [show b = qr by omega]
      exact hcc
  | tail hjb hbi IH =>
    rename_i b c
    obtain ⟨hblt, hbpar⟩ := hbi
    have hblen : b < fsize ts := by rwa [flattenF_length] at hblt
    rcases flattenF_parent ts none 0 b hblen with hp | ⟨qr, hqr, hpar', hcc⟩
    · rw [hbpar] at hp
      exact absurd hp (by simp)
    · rw [hbpar] at hpar'
      injection hpar' with h'
      have hcb : c < b := by omega
      have hbsub : b ≤ c + (nthNode (flattenF none 0 ts) c).childCount := by
        rw [show c = qr by omega]
        exact hcc
      have hnest := flattenF_nested ts none 0 c b hcb hblen hbsub
      obtain ⟨h1, h2⟩ := IH
      exact ⟨by omega, by omega⟩

theorem transChild_iff_interval (ts : List NTree) (i j : Nat)
    (hj : j < fsize ts) :
    transChild (flattenF none 0 ts) j i ↔
      i < j ∧ j ≤ i + (nthNode (flattenF none 0 ts) i).childCount := by
  constructor
  · exact interval_of_transChild ts j i
  · rintro ⟨hij, hsub⟩
    exact transChild_of_interval ts j i hij hj hsub

theorem nthNode_take_drop (l : List NodeDef) (a b m : Nat) (hm : m < b)
    (hal : a + m < l.length) :
    nthNode ((l.drop a).take b) m = nthNode l (a + m) := by
  have h1 : m < ((l.drop a).take b).length := by
    simp only [List.length_take, List.length_drop]
    omega
  unfold nthNode
  rw [List.getD_eq_getElem _ _ h1, List.getD_eq_getElem _ _ hal,
    List.getElem_take, List.getElem_drop]

theorem nthNode_mem (l : List NodeDef) (m : Nat) (hm : m < l.length) :
    nthNode l m ∈ l := by
  unfold nthNode
  rw [List.getD_eq_getElem _ _ hm]
  exact List.getElem_mem hm

/-- Every node strictly inside the index interval of node `i` is an element
of the serialization of `i`'s children forest. -/
theorem nthNode_mem_subtree (ts : List NTree) (i j : Nat)
    (hj : j < fsize ts) (hij : i < j)
    (hsub : j ≤ i + (nthNode (flattenF none 0 ts) i).childCount) :
    ∃ cs : List NTree,
      (nthNode (flattenF none 0 ts) i).childMatchedQueries = aggQ cs ∧
      nthNode (flattenF none 0 ts) j ∈ flattenF (some (0 + i)) (0 + i + 1) cs := by
  have hi : i < fsize ts := by omega
  obtain ⟨cs, hcc, _, _, hq, hslice⟩ := flattenF_slice ts none 0 i hi
  refine ⟨cs, hq, ?_⟩
  have hlen : (flattenF none 0 ts).length = fsize ts := flattenF_length ts none 0
  have hment : nthNode (((flattenF none 0 ts).drop (i + 1)).take
      (nthNode (flattenF none 0 ts) i).childCount) (j - (i + 1))
      = nthNode (flattenF none 0 ts) j := by
    rw [nthNode_take_drop _ _ _ _ (by omega) (by omega)]
    congr 1
    omega
  rw [← hment, hslice]
  apply nthNode_mem
  rw [flattenF_length]
  omega

/-- In a list of pairwise disjoint nonzero bits whose union masks `M`, a
flag word whose masked portion equals the listed bit `t` has that bit set
and no other listed bit set. -/
theorem uniqueTypeBit {bits : List Nat} {M f t : Nat}
    (hmem : t ∈ bits) (heq : f &&& M = t)
    (hsub : ∀ b ∈ bits, M &&& b = b)
    (hdisj : bits.Pairwise fun a b => a &&& b = 0)
    (hnz : ∀ b ∈ bits, b ≠ 0) :
    f &&& t ≠ 0 ∧ ∀ u ∈ bits, f &&& u ≠ 0 → u = t := by
  have hft : f &&& t = t := by
    have h1 : f &&& t = f &&& (M &&& t) := by rw [hsub t hmem]
    rw [h1, ← Nat.and_assoc, heq, Nat.and_self]
  constructor
  · rw [hft]
    exact hnz t hmem
  · intro u humem hu
    by_contra hne
    have hsymm : Symmetric fun a b : Nat => a &&& b = 0 := by
      intro a b h
      rwa [Nat.and_comm]
    have hzero : t &&& u = 0 := hdisj.forall hsymm hmem humem (fun h => hne h.symm)
    have : f &&& u = t &&& u := by
      have h1 : f &&& u = f &&& (M &&& u) := by rw [hsub u humem]
      rw [h1, ← Nat.and_assoc, heq]
    rw [this, hzero] at hu
    exact hu rfl

theorem asTextData_eq_some (v : ViewData) (i : Nat) (d : TextData) :
    asTextData v i = some d ↔ v.nodes i = some (.text d) := by
  unfold asTextData
  cases h : v.nodes i with
  | none => simp
  | some nd => cases nd <;> simp

theorem asElementData_eq_some (v : ViewData) (i : Nat) (d : ElementData) :
    asElementData v i = some d ↔ v.nodes i = some (.element d) := by
  unfold asElementData
  cases h : v.nodes i with
  | none => simp
  | some nd => cases nd <;> simp

theorem asProviderData_eq_some (v : ViewData) (i : Nat) (d : ProviderData) :
    asProviderData v i = some d ↔ v.nodes i = some (.provider d) := by
  unfold asProviderData
  cases h : v.nodes i with
  | none => simp
  | some nd => cases nd <;> simp

theorem asPureExpressionData_eq_some (v : ViewData) (i : Nat) (d : PureExpressionData) :
    asPureExpressionData v i = some d ↔ v.nodes i = some (.pureExpression d) := by
  unfold asPureExpressionData
  cases h : v.nodes i with
  | none => simp
  | some nd => cases nd <;> simp

theorem asQueryList_eq_some (v : ViewData) (i : Nat) (d : List AnyVal) :
    asQueryList v i = some d ↔ v.nodes i = some (.queryList d) := by
  unfold asQueryList
  cases h : v.nodes i with
  | none => simp
  | some nd => cases nd <;> simp

theorem runBindings_noChanges_vals (ctx : AnyVal) :
    ∀ (l : List ((AnyVal → AnyVal) × AnyVal)) (i : Nat),
      (runBindings .CheckNoChanges ctx i l).1 = l.map Prod.snd := by
  intro l
  induction l with
  | nil => intro i; simp [runBindings]
  | cons p rest ih =>
    intro i
    obtain ⟨ev, old⟩ := p
    simp [runBindings, ih]

theorem runBindings_noChanges_hooks (ctx : AnyVal) :
    ∀ (l : List ((AnyVal → AnyVal) × AnyVal)) (i : Nat),
      (runBindings .CheckNoChanges ctx i l).2.1 = [] := by
  intro l
  induction l with
  | nil => intro i; simp [runBindings]
  | cons p rest ih =>
    intro i
    obtain ⟨ev, old⟩ := p
    simp [runBindings]

theorem runBindings_noChanges_err_none (ctx : AnyVal) :
    ∀ (l : List ((AnyVal → AnyVal) × AnyVal)) (i : Nat),
      (runBindings .CheckNoChanges ctx i l).2.2 = none ↔ ∀ p ∈ l, p.1 ctx = p.2 := by
  intro l
  induction l with
  | nil => intro i; simp [runBindings]
  | cons p rest ih =>
    intro i
    obtain ⟨ev, old⟩ := p
    by_cases h : ev ctx = old
    · simp [runBindings, h, ih]
    · simp [runBindings, h]

theorem runBindings_noChanges_err_some (ctx : AnyVal) :
    ∀ (l : List ((AnyVal → AnyVal) × AnyVal)) (i : Nat) (e : ChangedError),
      (runBindings .CheckNoChanges ctx i l).2.2 = some e →
      ∃ k, ∃ hk : k < l.length, e.bindingIndex = i + k ∧
        l[k].1 ctx ≠ l[k].2 ∧ e.oldValue = l[k].2 ∧ e.newValue = l[k].1 ctx := by
  intro l
  induction l with
  | nil => intro i e h; simp [runBindings] at h
  | cons p rest ih =>
    intro i e h
    obtain ⟨ev, old⟩ := p
    by_cases hc : ev ctx = old
    · simp only [runBindings, hc, if_true] at h
      obtain ⟨k, hk, h1, h2, h3, h4⟩ := ih (i + 1) e h
      refine ⟨k + 1, by simp; omega, by omega, ?_, ?_, ?_⟩ <;>
        simpa using by assumption
    · simp only [runBindings, hc, if_false] at h
      injection h with h
      refine ⟨0, by simp, ?_, ?_, ?_, ?_⟩ <;> simp [← h, hc]

theorem runBindings_update_vals (ctx : AnyVal) :
    ∀ (l : List ((AnyVal → AnyVal) × AnyVal)) (i : Nat),
      (runBindings .CheckAndUpdate ctx i l).1 = l.map fun p => p.1 ctx := by
  intro l
  induction l with
  | nil => intro i; simp [runBindings]
  | cons p rest ih =>
    intro i
    obtain ⟨ev, old⟩ := p
    simp [runBindings, ih]

theorem runBindings_refreshed (ctx : AnyVal) :
    ∀ (bs : List (AnyVal → AnyVal)) (os : List AnyVal) (i : Nat),
      os.length = bs.length →
      (runBindings .CheckNoChanges ctx i
        (bs.zip ((bs.zip os).map fun p => p.1 ctx))).2.2 = none := by
  intro bs
  induction bs with
  | nil => intro os i h; simp [runBindings]
  | cons ev rest ih =>
    intro os i h
    cases os with
    | nil => simp at h
    | cons o os' =>
      simp only [List.zip_cons_cons, List.map_cons]
      simp [runBindings, ih os' (i + 1) (by simpa using h)]

theorem walkPublicProviders_none (k : String) :
    ∀ es : List ElementProviders,
      (∀ e ∈ es, lookupToken e.publicProviders k = none) →
      walkPublicProviders k es = none := by
  intro es
  induction es with
  | nil => intro h; simp [walkPublicProviders]
  | cons e rest ih =>
    intro h
    have he := h e (by simp)
    simp only [walkPublicProviders, he]
    exact ih fun e' he' => h e' (by simp [he'])

-- ---------------------------------------------------------------------------
-- Claim theorems.
-- ---------------------------------------------------------------------------

/-- C3: the fourteen `NodeFlags.Type...` bits are pairwise disjoint single
bits, `NodeFlags.Types` is exactly their bitwise OR, and every well-formed
node definition's flags contain exactly one primary-kind bit. -/
theorem nodeFlags_primary_kinds_exclusive :
    (nodeTypeBits.Pairwise fun a b => a &&& b = 0) ∧
    (∀ b ∈ nodeTypeBits, ∃ k, k < 29 ∧ b = 1 <<< k) ∧
    NodeFlags.Types = orList nodeTypeBits ∧
    (∀ f, NodeFlags.wellFormed f →
      ∃ t ∈ nodeTypeBits, f &&& t ≠ 0 ∧
        ∀ u ∈ nodeTypeBits, f &&& u ≠ 0 → u = t) := by
  refine ⟨by decide, by decide, by decide, ?_⟩
  rintro f ⟨t, hmem, heq⟩
  obtain ⟨h1, h2⟩ := uniqueTypeBit hmem heq (by decide) (by decide) (by decide)
  exact ⟨t, hmem, h1, h2⟩

theorem nodeFlags_primary_kinds_exclusive_witness :
    NodeFlags.wellFormed (NodeFlags.TypeElement ||| NodeFlags.Component) ∧
    (∃ t ∈ nodeTypeBits, (NodeFlags.TypeElement ||| NodeFlags.Component) &&& t ≠ 0 ∧
      ∀ u ∈ nodeTypeBits,
        (NodeFlags.TypeElement ||| NodeFlags.Component) &&& u ≠ 0 → u = t) :=
  ⟨by unfold NodeFlags.wellFormed; decide,
    nodeFlags_primary_kinds_exclusive.2.2.2 _ (by unfold NodeFlags.wellFormed; decide)⟩

/-- C4 counterexample: the claim says every category bit the spec lists,
content-query included, is disjoint from `NodeFlags.Types`; but the source
puts `TypeContentQuery` inside `Types` via `CatQuery`, so at that concrete
bit the claimed disjointness fails. -/
theorem contentQuery_bit_inside_types :
    ¬ (NodeFlags.TypeContentQuery &&& NodeFlags.Types = 0) := by decide

/-- C4 (amended): the lazy, private, component, lifecycle-hook,
static-query and dynamic-query bits are each disjoint from
`NodeFlags.Types`, so setting any of them never changes which primary kind
a flags word encodes; content-query and view-query, however, are themselves
primary-kind bits inside `Types`. -/
theorem orthogonal_bits_disjoint_from_types :
    (∀ b ∈ orthogonalCategoryBits,
      b &&& NodeFlags.Types = 0 ∧
      ∀ f : Nat, (f ||| b) &&& NodeFlags.Types = f &&& NodeFlags.Types) ∧
    NodeFlags.TypeContentQuery &&& NodeFlags.Types = NodeFlags.TypeContentQuery ∧
    NodeFlags.TypeViewQuery &&& NodeFlags.Types = NodeFlags.TypeViewQuery := by
  refine ⟨?_, by decide, by decide⟩
  intro b hb
  have hdisj : b &&& NodeFlags.Types = 0 := by fin_cases hb <;> decide
  refine ⟨hdisj, fun f => ?_⟩
  rw [Nat.and_comm, Nat.and_or_distrib_left, Nat.and_comm NodeFlags.Types f,
    Nat.and_comm NodeFlags.Types b, hdisj, Nat.or_zero]

theorem orthogonal_bits_disjoint_from_types_witness :
    NodeFlags.LazyProvider ∈ orthogonalCategoryBits ∧
    (NodeFlags.LazyProvider &&& NodeFlags.Types = 0 ∧
      ∀ f : Nat, (f ||| NodeFlags.LazyProvider) &&& NodeFlags.Types
        = f &&& NodeFlags.Types) :=
  ⟨by decide, orthogonal_bits_disjoint_from_types.1 _ (by decide)⟩

/-- C5 counterexample: `BindingFlags.Types` is not the OR of all six
binding bits; the source's mask omits the two synthetic-property bits
(`Types = 15`, the six-bit OR is `63`). -/
theorem bindingFlags_types_not_six_bits :
    ¬ (BindingFlags.Types
        = BindingFlags.TypeElementAttribute ||| BindingFlags.TypeElementClass |||
          BindingFlags.TypeElementStyle ||| BindingFlags.TypeProperty |||
          BindingFlags.SyntheticProperty ||| BindingFlags.SyntheticHostProperty) := by
  decide

/-- C5 (amended): `BindingFlags.Types` is the OR of the four mutually
exclusive bits attribute / class / style / property; the two synthetic bits
form the separate mask `CatSyntheticProperty`, disjoint from `Types`; and a
well-formed binding is tagged with exactly one of the four `Types` bits. -/
theorem bindingFlags_types_structure :
    BindingFlags.Types = orList bindingTypeBits ∧
    (bindingTypeBits.Pairwise fun a b => a &&& b = 0) ∧
    BindingFlags.CatSyntheticProperty
      = BindingFlags.SyntheticProperty ||| BindingFlags.SyntheticHostProperty ∧
    BindingFlags.Types &&& BindingFlags.CatSyntheticProperty = 0 ∧
    (∀ f, BindingFlags.wellFormed f →
      ∃ t ∈ bindingTypeBits, f &&& t ≠ 0 ∧
        ∀ u ∈ bindingTypeBits, f &&& u ≠ 0 → u = t) := by
  refine ⟨by decide, by decide, by decide, by decide, ?_⟩
  rintro f ⟨t, hmem, heq⟩
  obtain ⟨h1, h2⟩ := uniqueTypeBit hmem heq (by decide) (by decide) (by decide)
  exact ⟨t, hmem, h1, h2⟩

theorem bindingFlags_types_structure_witness :
    BindingFlags.wellFormed
      (BindingFlags.TypeProperty ||| BindingFlags.SyntheticProperty) ∧
    (∃ t ∈ bindingTypeBits,
      (BindingFlags.TypeProperty ||| BindingFlags.SyntheticProperty) &&& t ≠ 0 ∧
      ∀ u ∈ bindingTypeBits,
        (BindingFlags.TypeProperty ||| BindingFlags.SyntheticProperty) &&& u ≠ 0
          → u = t) :=
  ⟨by unfold BindingFlags.wellFormed; decide,
    bindingFlags_types_structure.2.2.2.2 _ (by unfold BindingFlags.wellFormed; decide)⟩

/-- C10: a well-formed `ViewDefinition.flags` value is either
`ViewFlags.None` or `ViewFlags.OnPush` — the enum declares no other
bit. -/
theorem viewFlags_only_onPush (f : Nat) (hf : ViewFlags.wellFormed f) :
    f = ViewFlags.None ∨ f = ViewFlags.OnPush := by
  unfold ViewFlags.wellFormed at hf
  have h2 : f ≤ 2 := by
    calc f = f &&& (ViewFlags.None ||| ViewFlags.OnPush) := hf.symm
    _ ≤ (ViewFlags.None ||| ViewFlags.OnPush) := Nat.and_le_right
    _ = 2 := by decide
  interval_cases f
  · left; decide
  · exact absurd hf (by decide)
  · right; decide

theorem viewFlags_only_onPush_witness :
    ViewFlags.wellFormed ViewFlags.OnPush ∧
    (ViewFlags.OnPush = ViewFlags.None ∨ ViewFlags.OnPush = ViewFlags.OnPush) :=
  ⟨by unfold ViewFlags.wellFormed; decide,
    viewFlags_only_onPush _ (by unfold ViewFlags.wellFormed; decide)⟩

/-- C7: when the provider chain is exhausted with no match (and the
dependency is not a literal `Value` dependency, which never consults the
chain), resolution yields the caller-supplied not-found value when
`Optional` is set and otherwise fails with a no-provider error naming the
token and the originating element. -/
theorem resolveDep_exhausted (rootInjector : String → Option AnyVal)
    (el : ElementProviders) (ancestors : List ElementProviders)
    (allowPrivateServices : Bool) (depDef : DepDef) (notFoundValue : AnyVal)
    (hval : depDef.flags &&& DepFlags.Value = 0)
    (hex : chainExhausted rootInjector el ancestors depDef.tokenKey) :
    resolveDep rootInjector el ancestors allowPrivateServices depDef notFoundValue
      = if depDef.flags &&& DepFlags.Optional ≠ 0 then .ok notFoundValue
        else .error ⟨depDef.tokenKey, el.index⟩ := by
  obtain ⟨hpub, hall, hanc, hroot⟩ := hex
  have hwalk := walkPublicProviders_none depDef.tokenKey ancestors hanc
  unfold resolveDep
  by_cases hskip : depDef.flags &&& DepFlags.SkipSelf ≠ 0 <;>
    cases allowPrivateServices <;>
      simp [hval, hskip, hpub, hall, hwalk, hroot]

theorem resolveDep_exhausted_witness :
    (({ flags := 0, token := 0, tokenKey := "Token" } : DepDef).flags
        &&& DepFlags.Value = 0) ∧
    chainExhausted (fun _ => none) ⟨7, [], []⟩ []
      ({ flags := 0, token := 0, tokenKey := "Token" } : DepDef).tokenKey ∧
    (resolveDep (fun _ => none) ⟨7, [], []⟩ [] true
        { flags := 0, token := 0, tokenKey := "Token" } 0
      = if ({ flags := 0, token := 0, tokenKey := "Token" } : DepDef).flags
            &&& DepFlags.Optional ≠ 0 then .ok 0
        else .error ⟨"Token", 7⟩) :=
  ⟨by decide,
    by unfold chainExhausted
       exact ⟨rfl, rfl, fun e he => absurd he (List.not_mem_nil e), rfl⟩,
    resolveDep_exhausted (fun _ => none) ⟨7, [], []⟩ [] true
      { flags := 0, token := 0, tokenKey := "Token" } 0 (by decide)
      (by unfold chainExhausted
          exact ⟨rfl, rfl, fun e he => absurd he (List.not_mem_nil e), rfl⟩)⟩

/-- C6: the no-changes verification runs the same traversal but leaves the
view untouched (old values, state bits) and fires no hooks; it reports a
changed-after-checked diagnostic exactly when some recomputed binding value
differs from the cached one, and the diagnostic identifies the offending
binding together with its cached and recomputed values. -/
theorem checkNoChangesView_pure (v : CheckView)
    (hlen : v.oldValues.length = v.bindings.length) :
    (checkNoChangesView v).view = v ∧
    (checkNoChangesView v).hooksFired = [] ∧
    ((checkNoChangesView v).changedError ≠ none ↔ ∃ idx, bindingDiffers v idx) ∧
    (∀ e, (checkNoChangesView v).changedError = some e →
      bindingDiffers v e.bindingIndex ∧
      e.oldValue = v.oldValues.getD e.bindingIndex 0 ∧
      e.newValue = (v.bindings.getD e.bindingIndex id) v.context) := by
  obtain ⟨bs, ctx, os, st⟩ := v
  simp only at hlen
  have hzlen : (bs.zip os).length = bs.length := by
    rw [List.length_zip]
    omega
  refine ⟨?_, ?_, ?_, ?_⟩
  · show CheckView.mk bs ctx (runBindings .CheckNoChanges ctx 0 (bs.zip os)).1 st
      = CheckView.mk bs ctx os st
    rw [runBindings_noChanges_vals, List.map_snd_zip bs os (by omega)]
  · exact runBindings_noChanges_hooks ctx (bs.zip os) 0
  · show ¬ (runBindings .CheckNoChanges ctx 0 (bs.zip os)).2.2 = none ↔ _
    rw [runBindings_noChanges_err_none]
    constructor
    · intro hne
      by_contra hno
      push_neg at hno
      apply hne
      intro p hp
      obtain ⟨k, hk, hkp⟩ := List.mem_iff_getElem.mp hp
      have hkb : k < bs.length := by omega
      have hko : k < os.length := by omega
      have hdk := hno k
      unfold bindingDiffers at hdk
      simp only at hdk
      rw [← hkp, List.getElem_zip]
      have h1 : bs.getD k id = bs[k] := List.getD_eq_getElem bs id hkb
      have h2 : os.getD k 0 = os[k] := List.getD_eq_getElem os 0 hko
      by_contra hne2
      exact hdk ⟨hkb, by rw [h1, h2]; exact hne2⟩
    · rintro ⟨idx, hidx, hdiff⟩ hall
      have hidx' : idx < bs.length := hidx
      have hdiff' : (bs.getD idx id) ctx ≠ os.getD idx 0 := hdiff
      have hio : idx < os.length := by omega
      have hiz : idx < (bs.zip os).length := by omega
      have := hall (bs.zip os)[idx] (List.getElem_mem hiz)
      rw [List.getElem_zip] at this
      simp only at this
      rw [List.getD_eq_getElem bs id hidx', List.getD_eq_getElem os 0 hio] at hdiff'
      exact hdiff' this
  · intro e he
    obtain ⟨k, hk, h1, h2, h3, h4⟩ :=
      runBindings_noChanges_err_some ctx (bs.zip os) 0 e he
    have hkb : k < bs.length := by omega
    have hko : k < os.length := by omega
    rw [List.getElem_zip] at h2 h3 h4
    simp only at h2 h3 h4
    have hidx : e.bindingIndex = k := by omega
    refine ⟨⟨by simp only [hidx]; exact (by omega : k < bs.length), ?_⟩, ?_, ?_⟩
    · simp only [hidx]
      rw [List.getD_eq_getElem bs id hkb, List.getD_eq_getElem os 0 hko]
      exact h2
    · simp only [hidx]
      rw [List.getD_eq_getElem os 0 hko]
      exact h3
    · simp only [hidx]
      rw [List.getD_eq_getElem bs id hkb]
      exact h4

/-- C9: immediately after a check-and-update cycle, the no-changes
verification reports no changed-after-checked error: the cache now holds
exactly the values the pure evaluators recompute from the unchanged
context. -/
theorem checkNoChanges_after_update (v : CheckView)
    (hlen : v.oldValues.length = v.bindings.length) :
    (checkNoChangesView (checkAndUpdateView v).view).changedError = none := by
  obtain ⟨bs, ctx, os, st⟩ := v
  simp only at hlen
  show (runBindings .CheckNoChanges ctx 0
    (bs.zip (runBindings .CheckAndUpdate ctx 0 (bs.zip os)).1)).2.2 = none
  rw [runBindings_update_vals]
  exact runBindings_refreshed ctx bs os 0 hlen

theorem checkNoChangesView_pure_witness :
    sampleCheckView.oldValues.length = sampleCheckView.bindings.length ∧
    ((checkNoChangesView sampleCheckView).view = sampleCheckView ∧
      (checkNoChangesView sampleCheckView).hooksFired = [] ∧
      ((checkNoChangesView sampleCheckView).changedError ≠ none ↔
        ∃ idx, bindingDiffers sampleCheckView idx) ∧
      (∀ e, (checkNoChangesView sampleCheckView).changedError = some e →
        bindingDiffers sampleCheckView e.bindingIndex ∧
        e.oldValue = sampleCheckView.oldValues.getD e.bindingIndex 0 ∧
        e.newValue = (sampleCheckView.bindings.getD e.bindingIndex id)
          sampleCheckView.context)) :=
  ⟨rfl, checkNoChangesView_pure sampleCheckView rfl⟩

theorem checkNoChanges_after_update_witness :
    sampleCheckView.oldValues.length = sampleCheckView.bindings.length ∧
    (checkNoChangesView (checkAndUpdateView sampleCheckView).view).changedError
      = none :=
  ⟨rfl, checkNoChanges_after_update sampleCheckView rfl⟩

/-- C1: in a well-typed view every node-data slot is reached only through
the accessor matching the node definition's kind: the accessor for kind K
on a slot populated by a kind-K definition returns exactly the stored
payload, and an accessor returns a payload only when both the slot contents
and the definition's kind agree with it, so no call site can observe a
payload shape other than the one the definition's kind determines. -/
theorem nodeData_accessors_kind_checked (v : ViewData) (hwt : wellTypedView v)
    (i : Nat) (hi : i < v.nodeFlagsList.length) :
    (dataKindOfFlags (v.nodeFlagsList.getD i 0) = some .textK →
      ∃ d, v.nodes i = some (.text d) ∧ asTextData v i = some d) ∧
    (∀ d, asTextData v i = some d → v.nodes i = some (.text d) ∧
      dataKindOfFlags (v.nodeFlagsList.getD i 0) = some .textK) ∧
    (dataKindOfFlags (v.nodeFlagsList.getD i 0) = some .elementK →
      ∃ d, v.nodes i = some (.element d) ∧ asElementData v i = some d) ∧
    (∀ d, asElementData v i = some d → v.nodes i = some (.element d) ∧
      dataKindOfFlags (v.nodeFlagsList.getD i 0) = some .elementK) ∧
    (dataKindOfFlags (v.nodeFlagsList.getD i 0) = some .providerK →
      ∃ d, v.nodes i = some (.provider d) ∧ asProviderData v i = some d) ∧
    (∀ d, asProviderData v i = some d → v.nodes i = some (.provider d) ∧
      dataKindOfFlags (v.nodeFlagsList.getD i 0) = some .providerK) ∧
    (dataKindOfFlags (v.nodeFlagsList.getD i 0) = some .pureExpressionK →
      ∃ d, v.nodes i = some (.pureExpression d) ∧ asPureExpressionData v i = some d) ∧
    (∀ d, asPureExpressionData v i = some d → v.nodes i = some (.pureExpression d) ∧
      dataKindOfFlags (v.nodeFlagsList.getD i 0) = some .pureExpressionK) ∧
    (dataKindOfFlags (v.nodeFlagsList.getD i 0) = some .queryK →
      ∃ d, v.nodes i = some (.queryList d) ∧ asQueryList v i = some d) ∧
    (∀ d, asQueryList v i = some d → v.nodes i = some (.queryList d) ∧
      dataKindOfFlags (v.nodeFlagsList.getD i 0) = some .queryK) := by
  have h := hwt i hi
  have hchar : ∀ d : NodeData, v.nodes i = some d →
      dataKindOfFlags (v.nodeFlagsList.getD i 0) = some d.kind := by
    intro d hd
    rcases hcase : dataKindOfFlags (v.nodeFlagsList.getD i 0) with _ | k
    · rw [hcase] at h
      rw [h] at hd
      cases hd
    · rw [hcase] at h
      obtain ⟨d', hd', hk⟩ := h
      rw [hd] at hd'
      injection hd' with hd'
      rw [hd', hk]
  refine ⟨?_, ?_, ?_, ?_, ?_, ?_, ?_, ?_, ?_, ?_⟩
  · intro hk
    rw [hk] at h
    obtain ⟨d, hd, hkind⟩ := h
    cases d <;> simp [NodeData.kind] at hkind
    exact ⟨_, hd, (asTextData_eq_some v i _).mpr hd⟩
  · intro d hacc
    have hn := (asTextData_eq_some v i d).mp hacc
    exact ⟨hn, hchar _ hn⟩
  · intro hk
    rw [hk] at h
    obtain ⟨d, hd, hkind⟩ := h
    cases d <;> simp [NodeData.kind] at hkind
    exact ⟨_, hd, (asElementData_eq_some v i _).mpr hd⟩
  · intro d hacc
    have hn := (asElementData_eq_some v i d).mp hacc
    exact ⟨hn, hchar _ hn⟩
  · intro hk
    rw [hk] at h
    obtain ⟨d, hd, hkind⟩ := h
    cases d <;> simp [NodeData.kind] at hkind
    exact ⟨_, hd, (asProviderData_eq_some v i _).mpr hd⟩
  · intro d hacc
    have hn := (asProviderData_eq_some v i d).mp hacc
    exact ⟨hn, hchar _ hn⟩
  · intro hk
    rw [hk] at h
    obtain ⟨d, hd, hkind⟩ := h
    cases d <;> simp [NodeData.kind] at hkind
    exact ⟨_, hd, (asPureExpressionData_eq_some v i _).mpr hd⟩
  · intro d hacc
    have hn := (asPureExpressionData_eq_some v i d).mp hacc
    exact ⟨hn, hchar _ hn⟩
  · intro hk
    rw [hk] at h
    obtain ⟨d, hd, hkind⟩ := h
    cases d <;> simp [NodeData.kind] at hkind
    exact ⟨_, hd, (asQueryList_eq_some v i _).mpr hd⟩
  · intro d hacc
    have hn := (asQueryList_eq_some v i d).mp hacc
    exact ⟨hn, hchar _ hn⟩

theorem nodeData_accessors_kind_checked_witness :
    wellTypedView sampleViewData ∧
    0 < sampleViewData.nodeFlagsList.length ∧
    ((dataKindOfFlags (sampleViewData.nodeFlagsList.getD 0 0) = some .textK →
      ∃ d, sampleViewData.nodes 0 = some (.text d) ∧
        asTextData sampleViewData 0 = some d) ∧
    (∀ d, asTextData sampleViewData 0 = some d →
      sampleViewData.nodes 0 = some (.text d) ∧
      dataKindOfFlags (sampleViewData.nodeFlagsList.getD 0 0) = some .textK) ∧
    (dataKindOfFlags (sampleViewData.nodeFlagsList.getD 0 0) = some .elementK →
      ∃ d, sampleViewData.nodes 0 = some (.element d) ∧
        asElementData sampleViewData 0 = some d) ∧
    (∀ d, asElementData sampleViewData 0 = some d →
      sampleViewData.nodes 0 = some (.element d) ∧
      dataKindOfFlags (sampleViewData.nodeFlagsList.getD 0 0) = some .elementK) ∧
    (dataKindOfFlags (sampleViewData.nodeFlagsList.getD 0 0) = some .providerK →
      ∃ d, sampleViewData.nodes 0 = some (.provider d) ∧
        asProviderData sampleViewData 0 = some d) ∧
    (∀ d, asProviderData sampleViewData 0 = some d →
      sampleViewData.nodes 0 = some (.provider d) ∧
      dataKindOfFlags (sampleViewData.nodeFlagsList.getD 0 0) = some .providerK) ∧
    (dataKindOfFlags (sampleViewData.nodeFlagsList.getD 0 0) = some .pureExpressionK →
      ∃ d, sampleViewData.nodes 0 = some (.pureExpression d) ∧
        asPureExpressionData sampleViewData 0 = some d) ∧
    (∀ d, asPureExpressionData sampleViewData 0 = some d →
      sampleViewData.nodes 0 = some (.pureExpression d) ∧
      dataKindOfFlags (sampleViewData.nodeFlagsList.getD 0 0)
        = some .pureExpressionK) ∧
    (dataKindOfFlags (sampleViewData.nodeFlagsList.getD 0 0) = some .queryK →
      ∃ d, sampleViewData.nodes 0 = some (.queryList d) ∧
        asQueryList sampleViewData 0 = some d) ∧
    (∀ d, asQueryList sampleViewData 0 = some d →
      sampleViewData.nodes 0 = some (.queryList d) ∧
      dataKindOfFlags (sampleViewData.nodeFlagsList.getD 0 0) = some .queryK)) := by
  have hwt : wellTypedView sampleViewData := by
    intro i hi
    have h1 : i = 0 := by
      simp only [sampleViewData, List.length_cons, List.length_nil] at hi
      omega
    subst h1
    exact ⟨.text { renderText := 7 }, rfl, rfl⟩
  exact ⟨hwt, by decide,
    nodeData_accessors_kind_checked sampleViewData hwt 0 (by decide)⟩

/-- C2: bloom-filter soundness.  If a query bit appears in the
`matchedQueryIds` of a node inside a subtree, then that bit is set in the
subtree root's `childMatchedQueries`, and in the view's
`nodeMatchedQueries`; false negatives are impossible. -/
theorem query_bloom_filter_sound (ts : List NTree) (q i j : Nat)
    (hj : j < (viewDefOfForest 0 ts).nodes.length)
    (hbit : q &&& (nthNode (viewDefOfForest 0 ts).nodes j).matchedQueryIds ≠ 0) :
    (i < j → j ≤ i + (nthNode (viewDefOfForest 0 ts).nodes i).childCount →
      q &&& (nthNode (viewDefOfForest 0 ts).nodes i).childMatchedQueries ≠ 0) ∧
    q &&& (viewDefOfForest 0 ts).nodeMatchedQueries ≠ 0 := by
  simp only [viewDefOfForest] at hj hbit ⊢
  constructor
  · intro hij hsub
    have hjf : j < fsize ts := by rwa [flattenF_length] at hj
    obtain ⟨cs, hq, hmem⟩ := nthNode_mem_subtree ts i j hjf hij hsub
    rw [hq]
    exact mem_flattenF_matchedQueryIds cs (some (0 + i)) (0 + i + 1) _ hmem q hbit
  · exact mem_flattenF_matchedQueryIds ts none 0 _ (nthNode_mem _ _ hj) q hbit

/-- The serialization of the sample forest, fully evaluated. -/
theorem sampleForest_flatten :
    flattenF none 0 sampleForest
      = [{ flags := 1, index := 0, parent := none, childCount := 1,
            childFlags := 2, directChildFlags := 2, matchedQueryIds := 0,
            childMatchedQueries := 2 },
          { flags := 2, index := 1, parent := some 0, childCount := 0,
            childFlags := 0, directChildFlags := 0, matchedQueryIds := 2,
            childMatchedQueries := 0 }] := by
  simp only [sampleForest, flattenF, fsize, aggF, aggQ, rootOrF]
  decide

theorem query_bloom_filter_sound_witness :
    (1 < (viewDefOfForest 0 sampleForest).nodes.length) ∧
    (2 &&& (nthNode (viewDefOfForest 0 sampleForest).nodes 1).matchedQueryIds ≠ 0) ∧
    ((0 < 1 → 1 ≤ 0 + (nthNode (viewDefOfForest 0 sampleForest).nodes 0).childCount →
      2 &&& (nthNode (viewDefOfForest 0 sampleForest).nodes 0).childMatchedQueries ≠ 0) ∧
    2 &&& (viewDefOfForest 0 sampleForest).nodeMatchedQueries ≠ 0) := by
  have hnodes : (viewDefOfForest 0 sampleForest).nodes
      = flattenF none 0 sampleForest := rfl
  have hj : 1 < (viewDefOfForest 0 sampleForest).nodes.length := by
    rw [hnodes, sampleForest_flatten]
    decide
  have hbit : 2 &&& (nthNode (viewDefOfForest 0 sampleForest).nodes 1).matchedQueryIds
      ≠ 0 := by
    rw [hnodes, sampleForest_flatten]
    decide
  exact ⟨hj, hbit, query_bloom_filter_sound sampleForest 2 0 1 hj hbit⟩

/-- C8: in the depth-first node sequence of a view definition, the
transitive children of the node at index i are exactly the entries at
indices i+1 through i+childCount, `childFlags` is the OR of the flags of
exactly those entries, and `directChildFlags` is the OR of the flags of the
entries whose `parent` back-reference is i (the direct children); the
`index` field always equals the node's position. -/
theorem depth_first_children_layout (ts : List NTree) (i : Nat)
    (hi : i < (viewDefOfForest 0 ts).nodes.length) :
    ((nthNode (viewDefOfForest 0 ts).nodes i).index = i) ∧
    (∀ j, j < (viewDefOfForest 0 ts).nodes.length →
      (transChild (viewDefOfForest 0 ts).nodes j i ↔
        i < j ∧ j ≤ i + (nthNode (viewDefOfForest 0 ts).nodes i).childCount)) ∧
    ((nthNode (viewDefOfForest 0 ts).nodes i).childFlags =
      orList ((((viewDefOfForest 0 ts).nodes.drop (i + 1)).take
        (nthNode (viewDefOfForest 0 ts).nodes i).childCount).map NodeDef.flags)) ∧
    ((nthNode (viewDefOfForest 0 ts).nodes i).directChildFlags =
      orList (((viewDefOfForest 0 ts).nodes.filter
        (fun e => e.parent == some i)).map NodeDef.flags)) := by
  simp only [viewDefOfForest] at hi ⊢
  have hif : i < fsize ts := by rwa [flattenF_length] at hi
  refine ⟨?_, ?_, ?_, ?_⟩
  · rw [flattenF_index ts none 0 i hif]
    omega
  · intro j hj
    exact transChild_iff_interval ts i j (by rwa [flattenF_length] at hj)
  · obtain ⟨cs, hcc, hcf, hdcf, hq, hslice⟩ := flattenF_slice ts none 0 i hif
    rw [hslice, orList_map_flags_flattenF]
    exact hcf
  · have hd := flattenF_directChildFlags ts none 0 i
      (fun a ha => Option.noConfusion ha) hif
    simp only [Nat.zero_add] at hd
    exact hd.symm

theorem depth_first_children_layout_witness :
    (0 < (viewDefOfForest 0 sampleForest).nodes.length) ∧
    (((nthNode (viewDefOfForest 0 sampleForest).nodes 0).index = 0) ∧
    (∀ j, j < (viewDefOfForest 0 sampleForest).nodes.length →
      (transChild (viewDefOfForest 0 sampleForest).nodes j 0 ↔
        0 < j ∧ j ≤ 0 + (nthNode (viewDefOfForest 0 sampleForest).nodes 0).childCount)) ∧
    ((nthNode (viewDefOfForest 0 sampleForest).nodes 0).childFlags =
      orList ((((viewDefOfForest 0 sampleForest).nodes.drop (0 + 1)).take
        (nthNode (viewDefOfForest 0 sampleForest).nodes 0).childCount).map NodeDef.flags)) ∧
    ((nthNode (viewDefOfForest 0 sampleForest).nodes 0).directChildFlags =
      orList (((viewDefOfForest 0 sampleForest).nodes.filter
        (fun e => e.parent == some 0)).map NodeDef.flags))) := by
  have hnodes : (viewDefOfForest 0 sampleForest).nodes
      = flattenF none 0 sampleForest := rfl
  have hi : 0 < (viewDefOfForest 0 sampleForest).nodes.length := by
    rw [hnodes, sampleForest_flatten]
    decide
  exact ⟨hi, depth_first_children_layout sampleForest 0 hi⟩
